import Mathlib

/-!
# Verification of the High Society auction engine

Shallow embedding of the `high_society` package (files `auction_card.py`,
`player.py`, `high_society.py`) and proofs of the specification claims.

Conventions of the embedding:
* Python money amounts are unbounded `Int` (Python ints are arbitrary precision);
  card values are `ℚ` (the Python floats that actually occur — integers, halves
  and their sums/products — are represented exactly by rationals).
* A Python `list` becomes a Lean `List`; `collections.Counter` arithmetic is
  multiset arithmetic on the underlying lists (`List.count`, `List.diff`).
* Code that raises an exception is embedded as an `Option`-returning function
  (`none` = the exception propagates).
* The `while` loops of the auction engine are embedded with explicit fuel.
-/

namespace HighSociety

/-! ## Cards (`auction_card.py`)

`AuctionCard.__init__` sets `card_type`, `name` and defaults
`value = 0`, `end_game = disgrace = theft = is_multiplier = False`;
each subclass constructor overrides some of the fields. -/

structure AuctionCard where
  card_type : String
  name : String
  value : ℚ
  end_game : Bool
  disgrace : Bool
  theft : Bool
  is_multiplier : Bool
deriving DecidableEq, Repr

/-- `AuctionCard.__init__(name, card_type)`: the base-class field defaults. -/
def AuctionCard.base (name card_type : String) : AuctionCard :=
  { card_type := card_type, name := name, value := 0,
    end_game := false, disgrace := false, theft := false, is_multiplier := false }

/-- `LuxuryCard.__init__`: base card of type `"Luxury"` with the given value. -/
def LuxuryCard (name : String) (value : ℚ) : AuctionCard :=
  { AuctionCard.base name "Luxury" with value := value }

/-- `MultiplierCard.__init__`: sets `is_multiplier`, `end_game`, the value, and
`disgrace = (value < 1)`. -/
def MultiplierCard (name : String) (value : ℚ) : AuctionCard :=
  { AuctionCard.base name "Multiplier" with
    is_multiplier := true, end_game := true, value := value,
    disgrace := decide (value < 1) }

/-- `FauxPasCard.__init__`: sets `theft` and `disgrace`; value stays 0. -/
def FauxPasCard (name : String) : AuctionCard :=
  { AuctionCard.base name "Faux Pas" with theft := true, disgrace := true }

/-- `PasseCard.__init__`: stores `-abs(value)` and sets `disgrace`. -/
def PasseCard (name : String) (value : ℚ) : AuctionCard :=
  { AuctionCard.base name "Passe" with value := -|value|, disgrace := true }

/-! ## Hands (`AuctionCardHand`)

A hand is its `cards` list. -/

/-- `AuctionCardHand.has_luxury_cards`. -/
def has_luxury_cards (cards : List AuctionCard) : Bool :=
  cards.any (fun c => c.card_type = "Luxury")

/-- `AuctionCardHand.has_faux_pas_cards`. -/
def has_faux_pas_cards (cards : List AuctionCard) : Bool :=
  cards.any (fun c => c.card_type = "Faux Pas")

/-- `min(luxury_cards, key=lambda x: x.value)`: Python's `min` keeps the first
element attaining the minimal key (it replaces only on strict `<`). Returns
`none` when the hand has no luxury card (Python raises `ValueError` there). -/
def smallestLuxury (cards : List AuctionCard) : Option AuctionCard :=
  (cards.filter (fun c => c.card_type = "Luxury")).foldl
    (fun acc c =>
      match acc with
      | none => some c
      | some m => if c.value < m.value then some c else some m)
    none

/-- `AuctionCardHand.remove_smallest_luxury_card`: removes the first
minimal-value luxury card.  (Python's `list.remove` removes the first element
equal to the minimum; since the minimum returned by `min` is the first card of
minimal value, no earlier card can be equal to it, so `List.erase` removes the
very same position.)  When there is no luxury card Python raises; the function
is only called under the `has_luxury_cards` guard, embedded as the identity. -/
def remove_smallest_luxury_card (cards : List AuctionCard) : List AuctionCard :=
  match smallestLuxury cards with
  | none => cards
  | some m => cards.erase m

/-- `AuctionCardHand.remove_faux_pas_card`: removes the first `"Faux Pas"`
card (Python removes `faux_pas_cards[0]`, the first such card).  When there is
none Python raises; only called under the guard, embedded as the identity. -/
def remove_faux_pas_card (cards : List AuctionCard) : List AuctionCard :=
  match cards.find? (fun c => c.card_type = "Faux Pas") with
  | none => cards
  | some c => cards.erase c

/-- `AuctionCardHand.win_card`. -/
def win_card (cards : List AuctionCard) (card : AuctionCard) : List AuctionCard :=
  if card.card_type = "Faux Pas" then
    if has_luxury_cards cards then remove_smallest_luxury_card cards
    else cards ++ [card]
  else if has_faux_pas_cards cards ∧ card.card_type = "Luxury" then
    remove_faux_pas_card cards
  else cards ++ [card]

/-- `AuctionCardHand.get_score`: sum of Luxury/Passe values times the running
product of multiplier values (starting at 1.0). -/
def get_score (cards : List AuctionCard) : ℚ :=
  let base_score :=
    ((cards.filter (fun c => c.card_type = "Luxury" ∨ c.card_type = "Passe")).map
      (fun c => c.value)).sum
  let mult := cards.foldl (fun m c => if c.is_multiplier then m * c.value else m) 1
  base_score * mult

/-! ## Bidding (`player.py`)

A bid and the funds are lists of `Int` denominations; `[-1]` is the pass
sentinel.  `Counter` comparisons become `List.count` comparisons. -/

/-- `Player.bid_is_valid(bid, current_highest_bid)`: passing (`[-1]`) is always
valid; otherwise the bid total must strictly exceed the current highest bid's
total and every denomination of the bid must be present in the player's funds
with at least the bid's multiplicity (the `Counter` loop). -/
def bid_is_valid (funds bid current_highest_bid : List Int) : Bool :=
  if bid = [-1] then true
  else if bid.sum ≤ current_highest_bid.sum then false
  else bid.all (fun d => bid.count d ≤ funds.count d)

/-- `Player.get_available_raises`: `Counter(funds) - Counter(bid)` flattened by
`.elements()`, i.e. the multiset difference of funds and the committed bid.
(`List.diff` realises that multiset; `.elements()` lists the same multiset in
key order, and every property proved below is invariant under permutation of
this list.) -/
def get_available_raises (funds bid : List Int) : List Int :=
  funds.diff bid

/-- The comparison key of `sorted(valid_bids, key=sum)`. -/
def sumLE (a b : List Int) : Prop := a.sum ≤ b.sum

instance : DecidableRel sumLE := fun a b => inferInstanceAs (Decidable (a.sum ≤ b.sum))

instance : IsTotal (List Int) sumLE := ⟨fun a b => Int.le_total a.sum b.sum⟩

instance : IsTrans (List Int) sumLE := ⟨fun _ _ _ h h' => le_trans h h'⟩

/-- `Player.get_valid_bids(current_highest_bid)`: enumerate the combinations of
each length `1 .. len(funds_available)` of the available raises, keep those
whose sum strictly exceeds `sum(current_highest_bid) - sum(self.bid)`, and
return them sorted ascending by sum.  (`combinations(l, n)` yields exactly the
length-`n` subsequences of `l`, which is `List.sublistsLen n l`.) -/
def get_valid_bids (funds bid current_highest_bid : List Int) : List (List Int) :=
  let raise_minimum := current_highest_bid.sum - bid.sum
  let funds_available := get_available_raises funds bid
  let combos :=
    (List.range funds_available.length).flatMap
      (fun n => List.sublistsLen (n + 1) funds_available)
  List.insertionSort sumLE (combos.filter (fun combo => raise_minimum < combo.sum))

/-- One step of `Player.spend_bid`'s loop body: `self._funds.remove(card)`
removes the first occurrence and raises `ValueError` when absent. -/
def removeCard (funds : List Int) (card : Int) : Option (List Int) :=
  if card ∈ funds then some (funds.erase card) else none

/-- `Player.spend_bid`'s loop `for card in self.bid: self._funds.remove(card)`:
removes each denomination of the bid in turn, `none` if one is missing. -/
def spendFunds (funds : List Int) : List Int → Option (List Int)
  | [] => some funds
  | card :: rest =>
    match removeCard funds card with
    | none => none
    | some funds' => spendFunds funds' rest

/-! ## Game state (`high_society.py`)

For the auction-level claims a player is its identity, funds, committed bid
and hand; the decision policy (`bid_or_pass`) is abstracted by a script of
returned bids, which is exactly the information the auction loop consumes. -/

structure GPlayer where
  id : Nat
  funds : List Int
  bid : List Int
  hand : List AuctionCard
deriving DecidableEq, Repr

/-- `Player.total_money`. -/
def GPlayer.total_money (p : GPlayer) : Int := p.funds.sum

/-- `Player.get_total_score`. -/
def GPlayer.get_total_score (p : GPlayer) : ℚ := get_score p.hand

/-- `Player.spend_bid`: remove the bid from the funds and reset the bid. -/
def GPlayer.spend_bid (p : GPlayer) : Option GPlayer :=
  match spendFunds p.funds p.bid with
  | none => none
  | some funds' => some { p with funds := funds', bid := [] }

/-- The rotation loop of `HighSociety._next_player`: up to `n` times, move the
front player to the back and stop when the new front player has not passed.
`none` embeds falling through to the final `raise NoActivePlayerError`. -/
def rotateLoop : Nat → List GPlayer → List Nat → Option (List GPlayer)
  | 0, _, _ => none
  | n + 1, players, passed =>
    match players with
    | [] => none
    | p :: ps =>
      let r := ps ++ [p]
      match r.head? with
      | none => none
      | some q => if q.id ∈ passed then rotateLoop n r passed else some r

/-- `HighSociety._next_player`: raises (`none`) when the player list is empty
or every player has passed; otherwise rotates to the next non-passed player.
The passed set holds player identities. -/
def next_player (players : List GPlayer) (passed : List Nat) : Option (List GPlayer) :=
  if players = [] then none
  else if players.all (fun p => p.id ∈ passed) then none
  else rotateLoop players.length players passed

/-- The per-auction state (`AuctionState` plus the rotating player ring):
the ring (front = current player), the passed set (identities) and the
current highest bid. -/
structure AvoidState where
  players : List GPlayer
  passed : List Nat
  current_bid : List Int
deriving DecidableEq, Repr

/-- The `while len(self.passed_players) == 0` loop of
`HighSociety.hold_auction_to_avoid`, driven by a script of the bids returned
by successive `bid_or_pass` calls (each call sets the current player's
committed bid to the returned value).  On `[-1]` the current player is marked
passed and the loop exits without rotating; on any other bid the highest bid
is replaced and the ring advances via `_next_player`.  `none` embeds an
exception (empty ring, rotation failure) or nontermination (fuel out, no
scripted decision left). -/
def loopAvoid : Nat → List (List Int) → AvoidState → Option AvoidState
  | 0, _, _ => none
  | fuel + 1, script, s =>
    if s.passed = [] then
      match s.players, script with
      | [], _ => none
      | _, [] => none
      | p :: ps, d :: rest =>
        let p' := { p with bid := d }
        if d = [-1] then
          some { s with players := p' :: ps, passed := [p'.id] }
        else
          match next_player (p' :: ps) s.passed with
          | none => none
          | some players' =>
            loopAvoid fuel rest { players := players', passed := s.passed, current_bid := d }
    else some s

/-- The settlement part of `hold_auction_to_avoid`: the (sole) passed player
is popped as winner and receives the card via `win_card`; every other player
spends their own committed bid.  Returns the updated ring and the winner's
identity; `none` embeds `pop` from an empty set or a failing `remove`. -/
def resolveAvoid (card : AuctionCard) (wid : Nat) : List GPlayer → Option (List GPlayer)
  | [] => some []
  | p :: ps =>
    let step : Option GPlayer :=
      if p.id = wid then some { p with hand := win_card p.hand card }
      else p.spend_bid
    match step, resolveAvoid card wid ps with
    | some q, some qs => some (q :: qs)
    | _, _ => none

/-- `HighSociety.hold_auction_to_avoid`, from a freshly reset auction state
(`reset_auction` clears the passed set and the highest bid). -/
def hold_auction_to_avoid (card : AuctionCard) (fuel : Nat) (script : List (List Int))
    (players : List GPlayer) : Option (List GPlayer × Nat) :=
  match loopAvoid fuel script ⟨players, [], []⟩ with
  | none => none
  | some s =>
    match s.passed with
    | [] => none
    | wid :: _ =>
      match resolveAvoid card wid s.players with
      | none => none
      | some final => some (final, wid)

/-- `min(player.total_money for player in players)` over a nonempty ring. -/
def lowestMoney (p : GPlayer) (ps : List GPlayer) : Int :=
  ps.foldl (fun m q => min m q.total_money) p.total_money

/-- `max(eligible_winners, key=...)`: Python's `max` keeps the first element
attaining the maximal key (it replaces only on strict `>`). -/
def maxByScore (e : GPlayer) (es : List GPlayer) : GPlayer :=
  es.foldl (fun best q => if best.get_total_score < q.get_total_score then q else best) e

/-- `HighSociety.get_winner`: the players whose remaining money is strictly
above the minimum are eligible; `none` if no player is eligible, else the
eligible player with the highest hand score.  (Python's `min` over an empty
player list raises; embedded as `none`.) -/
def get_winner (players : List GPlayer) : Option GPlayer :=
  match players with
  | [] => none
  | p :: ps =>
    let lowest_money := lowestMoney p ps
    match (p :: ps).filter (fun q => lowest_money < q.total_money) with
    | [] => none
    | e :: es => some (maxByScore e es)

/-! ## Helper lemmas -/

/-- The multiplier fold of `get_score` is the product of the multiplier values. -/
lemma foldl_mult_eq (cards : List AuctionCard) (m : ℚ) :
    cards.foldl (fun m c => if c.is_multiplier then m * c.value else m) m =
      m * ((cards.filter (fun c => c.is_multiplier)).map (fun c => c.value)).prod := by
  induction cards generalizing m with
  | nil => simp
  | cons c cs ih =>
    by_cases h : c.is_multiplier = true <;>
      simp [h, List.foldl_cons, ih, List.filter_cons, mul_assoc]

/-! ### C9, C4, C1, C7 -/

/-- C9: `MultiplierCard` always sets `endsGame` and is disgrace iff its value is
strictly below 1; `FauxPasCard` is always theft and disgrace with value 0; and
`PasseCard` stores the negative of its face value (`-abs(value)`). -/
theorem card_invariants (name : String) (v : ℚ) :
    (MultiplierCard name v).end_game = true ∧
    ((MultiplierCard name v).disgrace = true ↔ v < 1) ∧
    (FauxPasCard name).theft = true ∧
    (FauxPasCard name).disgrace = true ∧
    (FauxPasCard name).value = 0 ∧
    (PasseCard name v).value = -|v| := by
  refine ⟨rfl, ?_, rfl, rfl, rfl, rfl⟩
  show decide (v < 1) = true ↔ v < 1
  exact decide_eq_true_iff

/-- C4: the score of every hand is the sum of its Luxury and Passe values times
the product of its Multiplier values (1 when there is none); in particular
Luxury(10)+Luxury(20) scores 30, adding Passe(5) gives 25, adding
Multiplier(2) gives 50, and Luxury(10)+Multiplier(2)+Multiplier(3) scores 60. -/
theorem get_score_spec :
    (∀ cards : List AuctionCard,
      get_score cards =
        ((cards.filter (fun c => c.card_type = "Luxury" ∨ c.card_type = "Passe")).map
          (fun c => c.value)).sum *
        ((cards.filter (fun c => c.is_multiplier)).map (fun c => c.value)).prod) ∧
    get_score [LuxuryCard "A" 10, LuxuryCard "B" 20] = 30 ∧
    get_score [LuxuryCard "A" 10, LuxuryCard "B" 20, PasseCard "P" 5] = 25 ∧
    get_score [LuxuryCard "A" 10, LuxuryCard "B" 20, PasseCard "P" 5,
               MultiplierCard "M" 2] = 50 ∧
    get_score [LuxuryCard "A" 10, MultiplierCard "M" 2, MultiplierCard "N" 3] = 60 := by
  have escore : ∀ cards : List AuctionCard,
      get_score cards =
        ((cards.filter (fun c => c.card_type = "Luxury" ∨ c.card_type = "Passe")).map
          (fun c => c.value)).sum *
        ((cards.filter (fun c => c.is_multiplier)).map (fun c => c.value)).prod := by
    intro cards
    unfold get_score
    rw [foldl_mult_eq, one_mul]
  refine ⟨escore, ?_, ?_, ?_, ?_⟩ <;>
    rw [escore] <;>
      norm_num [LuxuryCard, MultiplierCard, PasseCard, AuctionCard.base,
        List.filter, List.map]

/-- C1: a bid is valid iff it is the pass sentinel `[-1]`, or its sum strictly
exceeds the current highest bid's sum and every denomination of the bid occurs
in the player's funds with at least the bid's multiplicity; in particular a
non-pass bid whose sum merely equals the highest bid's sum is rejected. -/
theorem bid_is_valid_spec (funds bid chb : List Int) :
    (bid_is_valid funds bid chb = true ↔
      bid = [-1] ∨
        (chb.sum < bid.sum ∧ ∀ d ∈ bid, bid.count d ≤ funds.count d)) ∧
    (bid ≠ [-1] → bid.sum = chb.sum → bid_is_valid funds bid chb = false) := by
  constructor
  · unfold bid_is_valid
    by_cases hp : bid = [-1]
    · simp [hp]
    · by_cases hs : bid.sum ≤ chb.sum
      · rw [if_neg hp, if_pos hs]
        constructor
        · intro hfalse
          exact absurd hfalse (by simp)
        · rintro (rfl | ⟨hlt, -⟩)
          · exact absurd rfl hp
          · exact absurd hs (not_le.mpr hlt)
      · simp [hp, hs, List.all_eq_true, not_le.mp hs]
  · intro hp hs
    unfold bid_is_valid
    simp [hp, le_of_eq hs]

/-- C1 witness: a bid of 1000 against a highest bid of 1000 (funds sufficient)
is rejected. -/
theorem bid_is_valid_spec_witness :
    bid_is_valid [1000, 2000] [1000] [1000] = false :=
  (bid_is_valid_spec [1000, 2000] [1000] [1000]).2 (by decide) (by decide)

/-- C7: whenever the bid is contained in the funds with sufficient multiplicity,
spending it succeeds and re-adding the same denominations restores the original
inventory as a multiset. -/
theorem spend_bid_roundtrip (funds bid : List Int)
    (hmem : ∀ d ∈ bid, bid.count d ≤ funds.count d) :
    ∃ r, spendFunds funds bid = some r ∧ (r ++ bid).Perm funds := by
  have h : ∀ d, bid.count d ≤ funds.count d := by
    intro d
    by_cases hd : d ∈ bid
    · exact hmem d hd
    · simp [List.count_eq_zero_of_not_mem hd]
  clear hmem
  induction bid generalizing funds with
  | nil => exact ⟨funds, rfl, by simp⟩
  | cons c cs ih =>
    have hc : c ∈ funds := by
      have := h c
      simp only [List.count_cons_self] at this
      exact List.count_pos_iff.mp (lt_of_lt_of_le (Nat.succ_pos _) this)
    have h' : ∀ d, cs.count d ≤ (funds.erase c).count d := by
      intro d
      by_cases hd : d = c
      · subst hd
        rw [List.count_erase_self]
        have := h d
        rw [List.count_cons_self] at this
        omega
      · rw [List.count_erase_of_ne hd]
        have := h d
        rw [List.count_cons_of_ne hd] at this
        exact this
    obtain ⟨r, hr, hperm⟩ := ih (funds.erase c) h'
    refine ⟨r, ?_, ?_⟩
    · simp [spendFunds, removeCard, hc, hr]
    · exact List.perm_middle.trans ((hperm.cons c).trans (List.perm_cons_erase hc).symm)

/-- C7 witness: spending the bid `[2000, 1000]` from funds `[1000, 2000, 2000]`
and re-adding it restores the inventory. -/
theorem spend_bid_roundtrip_witness :
    ∃ r, spendFunds [1000, 2000, 2000] [2000, 1000] = some r ∧
      (r ++ [2000, 1000]).Perm [1000, 2000, 2000] :=
  spend_bid_roundtrip [1000, 2000, 2000] [2000, 1000] (by decide)

/-! ### C3 and C10: the `win_card` theft interaction -/

/-- The fold inside `smallestLuxury` returns an element of the list (or the
seed) of minimal value: Python's `min(..., key=...)`. -/
lemma foldl_min_value (l : List AuctionCard) :
    ∀ m : AuctionCard, ∃ m',
      l.foldl (fun acc c =>
        match acc with
        | none => some c
        | some m => if c.value < m.value then some c else some m) (some m) = some m' ∧
      (m' = m ∨ m' ∈ l) ∧ m'.value ≤ m.value ∧ ∀ c ∈ l, m'.value ≤ c.value := by
  induction l with
  | nil => exact fun m => ⟨m, rfl, Or.inl rfl, le_refl _, by simp⟩
  | cons c cs ih =>
    intro m
    by_cases hlt : c.value < m.value
    · obtain ⟨m', he, hmem, hle, hall⟩ := ih c
      refine ⟨m', by simpa [hlt] using he, ?_, le_of_lt (lt_of_le_of_lt hle hlt), ?_⟩
      · rcases hmem with rfl | hm
        · exact Or.inr (List.mem_cons_self _ _)
        · exact Or.inr (List.mem_cons_of_mem _ hm)
      · intro x hx
        rcases List.mem_cons.mp hx with rfl | hx'
        · exact hle
        · exact hall x hx'
    · obtain ⟨m', he, hmem, hle, hall⟩ := ih m
      refine ⟨m', by simpa [hlt] using he, ?_, hle, ?_⟩
      · rcases hmem with rfl | hm
        · exact Or.inl rfl
        · exact Or.inr (List.mem_cons_of_mem _ hm)
      · intro x hx
        rcases List.mem_cons.mp hx with rfl | hx'
        · exact le_trans hle (not_lt.mp hlt)
        · exact hall x hx'

/-- When the hand holds a luxury card, `smallestLuxury` returns a luxury card
of the hand with minimal value among the hand's luxury cards. -/
lemma smallestLuxury_spec (h : List AuctionCard) (hl : has_luxury_cards h = true) :
    ∃ m, smallestLuxury h = some m ∧ m ∈ h ∧ m.card_type = "Luxury" ∧
      ∀ c ∈ h, c.card_type = "Luxury" → m.value ≤ c.value := by
  obtain ⟨x, hx, hpx⟩ := List.any_eq_true.mp hl
  have hxf : x ∈ h.filter (fun c => decide (c.card_type = "Luxury")) :=
    List.mem_filter.mpr ⟨hx, hpx⟩
  obtain ⟨c, cs, hcs⟩ := List.exists_cons_of_ne_nil (List.ne_nil_of_mem hxf)
  unfold smallestLuxury
  rw [hcs, List.foldl_cons]
  obtain ⟨m, he, hmem, hle, hall⟩ := foldl_min_value cs c
  have hmf : m ∈ h.filter (fun c => decide (c.card_type = "Luxury")) := by
    rw [hcs]
    rcases hmem with rfl | hm
    · exact List.mem_cons_self _ _
    · exact List.mem_cons_of_mem _ hm
  obtain ⟨hmh, hmp⟩ := List.mem_filter.mp hmf
  refine ⟨m, he, hmh, of_decide_eq_true hmp, ?_⟩
  intro d hd hdp
  have hdf : d ∈ h.filter (fun c => decide (c.card_type = "Luxury")) :=
    List.mem_filter.mpr ⟨hd, by simp [hdp]⟩
  rw [hcs] at hdf
  rcases List.mem_cons.mp hdf with rfl | hd'
  · exact hle
  · exact hall d hd'

/-- When the hand holds a Faux Pas card, `find?` returns a Faux Pas card of
the hand. -/
lemma find_fauxpas (h : List AuctionCard) (hf : has_faux_pas_cards h = true) :
    ∃ m, h.find? (fun c => c.card_type = "Faux Pas") = some m ∧ m ∈ h ∧
      m.card_type = "Faux Pas" := by
  obtain ⟨x, hx, hpx⟩ := List.any_eq_true.mp hf
  have hsome : (h.find? (fun c => decide (c.card_type = "Faux Pas"))).isSome := by
    rw [List.find?_isSome]
    exact ⟨x, hx, hpx⟩
  obtain ⟨m, hm⟩ := Option.isSome_iff_exists.mp hsome
  have hpm := List.find?_some hm
  simp only [decide_eq_true_eq] at hpm
  exact ⟨m, hm, List.mem_of_find?_eq_some hm, hpm⟩

/-- C3: the theft rules of `win_card` — a Faux Pas card won with no luxury in
hand is appended; a Faux Pas card won with a luxury card in hand adds nothing
and removes a minimal-value luxury card; a Luxury card won while a Faux Pas
card is held adds nothing and removes one Faux Pas card.  Concretely, Faux Pas
into an empty hand followed by a Luxury leaves the hand empty, and Luxury(10),
Luxury(20), then Faux Pas leaves exactly the value-20 Luxury card. -/
theorem win_card_spec :
    (∀ (h : List AuctionCard) (card : AuctionCard), card.card_type = "Faux Pas" →
      has_luxury_cards h = false → win_card h card = h ++ [card]) ∧
    (∀ (h : List AuctionCard) (card : AuctionCard), card.card_type = "Faux Pas" →
      has_luxury_cards h = true →
      ∃ m ∈ h, m.card_type = "Luxury" ∧
        (∀ c ∈ h, c.card_type = "Luxury" → m.value ≤ c.value) ∧
        win_card h card = h.erase m) ∧
    (∀ (h : List AuctionCard) (card : AuctionCard), card.card_type = "Luxury" →
      has_faux_pas_cards h = true →
      ∃ m ∈ h, m.card_type = "Faux Pas" ∧ win_card h card = h.erase m) ∧
    win_card (win_card [] (FauxPasCard "FP")) (LuxuryCard "L" 10) = [] ∧
    win_card (win_card (win_card [] (LuxuryCard "A" 10)) (LuxuryCard "B" 20))
      (FauxPasCard "FP") = [LuxuryCard "B" 20] := by
  refine ⟨?_, ?_, ?_, ?_, ?_⟩
  · intro h card hfp hl
    unfold win_card
    rw [if_pos hfp, hl]
    simp
  · intro h card hfp hl
    obtain ⟨m, he, hmh, hmp, hmin⟩ := smallestLuxury_spec h hl
    refine ⟨m, hmh, hmp, hmin, ?_⟩
    unfold win_card
    rw [if_pos hfp, hl]
    simp only [if_true]
    unfold remove_smallest_luxury_card
    rw [he]
  · intro h card hlx hf
    obtain ⟨m, he, hmh, hmp⟩ := find_fauxpas h hf
    refine ⟨m, hmh, hmp, ?_⟩
    unfold win_card
    have hne : ¬(card.card_type = "Faux Pas") := by rw [hlx]; decide
    rw [if_neg hne, if_pos ⟨hf, hlx⟩]
    unfold remove_faux_pas_card
    rw [he]
  · decide
  · decide

/-- C3 witness: a Faux Pas card won with luxury cards 10 and 20 in hand
removes the value-10 card, applying the theorem's branches at concrete
inputs. -/
theorem win_card_spec_witness :
    (∃ m ∈ [LuxuryCard "A" 10, LuxuryCard "B" 20], m.card_type = "Luxury" ∧
      (∀ c ∈ [LuxuryCard "A" 10, LuxuryCard "B" 20], c.card_type = "Luxury" →
        m.value ≤ c.value) ∧
      win_card [LuxuryCard "A" 10, LuxuryCard "B" 20] (FauxPasCard "FP") =
        [LuxuryCard "A" 10, LuxuryCard "B" 20].erase m) ∧
    win_card [] (FauxPasCard "FP") = [] ++ [FauxPasCard "FP"] ∧
    (∃ m ∈ [FauxPasCard "FP"], m.card_type = "Faux Pas" ∧
      win_card [FauxPasCard "FP"] (LuxuryCard "L" 10) = [FauxPasCard "FP"].erase m) :=
  ⟨win_card_spec.2.1 [LuxuryCard "A" 10, LuxuryCard "B" 20] (FauxPasCard "FP") rfl
      (by decide),
   win_card_spec.1 [] (FauxPasCard "FP") rfl (by decide),
   win_card_spec.2.2.1 [FauxPasCard "FP"] (LuxuryCard "L" 10) rfl (by decide)⟩

/-- Appending a card: the luxury flag of the result. -/
lemma has_luxury_append (h : List AuctionCard) (c : AuctionCard) :
    has_luxury_cards (h ++ [c]) =
      (has_luxury_cards h || decide (c.card_type = "Luxury")) := by
  simp [has_luxury_cards]

/-- Appending a card: the Faux Pas flag of the result. -/
lemma has_fauxpas_append (h : List AuctionCard) (c : AuctionCard) :
    has_faux_pas_cards (h ++ [c]) =
      (has_faux_pas_cards h || decide (c.card_type = "Faux Pas")) := by
  simp [has_faux_pas_cards]

/-- `List.any` can only lose witnesses under `erase`. -/
lemma any_erase (h : List AuctionCard) (m : AuctionCard) (p : AuctionCard → Bool)
    (he : (h.erase m).any p = true) : h.any p = true := by
  obtain ⟨x, hx, hpx⟩ := List.any_eq_true.mp he
  exact List.any_eq_true.mpr ⟨x, (List.erase_sublist m h).mem hx, hpx⟩

/-- One `win_card` call preserves the never-luxury-and-fauxpas invariant. -/
lemma win_card_step (h : List AuctionCard) (card : AuctionCard)
    (hinv : ¬(has_luxury_cards h = true ∧ has_faux_pas_cards h = true)) :
    ¬(has_luxury_cards (win_card h card) = true ∧
      has_faux_pas_cards (win_card h card) = true) := by
  unfold win_card
  by_cases hfp : card.card_type = "Faux Pas"
  · rw [if_pos hfp]
    by_cases hl : has_luxury_cards h = true
    · rw [hl]
      simp only [if_true]
      rintro ⟨-, hfp'⟩
      apply hinv
      refine ⟨hl, ?_⟩
      unfold remove_smallest_luxury_card at hfp'
      rcases hsl : smallestLuxury h with _ | m
      · rwa [hsl] at hfp'
      · rw [hsl] at hfp'
        exact any_erase h m _ hfp'
    · rw [Bool.not_eq_true] at hl
      rw [hl]
      simp only [Bool.false_eq_true, if_false]
      rintro ⟨hlux', -⟩
      rw [has_luxury_append, hl] at hlux'
      simp only [Bool.false_or, decide_eq_true_iff] at hlux'
      rw [hfp] at hlux'
      exact absurd hlux' (by decide)
  · rw [if_neg hfp]
    by_cases hcl : has_faux_pas_cards h = true ∧ card.card_type = "Luxury"
    · rw [if_pos hcl]
      rintro ⟨hlux', -⟩
      apply hinv
      refine ⟨?_, hcl.1⟩
      unfold remove_faux_pas_card at hlux'
      rcases hfd : h.find? (fun c => c.card_type = "Faux Pas") with _ | m
      · rwa [hfd] at hlux'
      · rw [hfd] at hlux'
        exact any_erase h m _ hlux'
    · rw [if_neg hcl]
      rintro ⟨hlux', hfp'⟩
      rw [has_fauxpas_append] at hfp'
      have hfh : has_faux_pas_cards h = true := by
        rcases Bool.or_eq_true_iff.mp hfp' with hh | hc
        · exact hh
        · exact absurd (of_decide_eq_true hc) hfp
      have hncl : ¬(card.card_type = "Luxury") := fun hc => hcl ⟨hfh, hc⟩
      rw [has_luxury_append] at hlux'
      have hlh : has_luxury_cards h = true := by
        rcases Bool.or_eq_true_iff.mp hlux' with hh | hc
        · exact hh
        · exact absurd (of_decide_eq_true hc) hncl
      exact hinv ⟨hlh, hfh⟩

/-- C10: starting from an empty hand, no sequence of `win_card` calls ever
produces a hand holding both a Luxury card and a Faux Pas card. -/
theorem win_card_invariant (cs : List AuctionCard) :
    ¬(has_luxury_cards (cs.foldl win_card []) = true ∧
      has_faux_pas_cards (cs.foldl win_card []) = true) := by
  have hgen : ∀ (l : List AuctionCard) (h : List AuctionCard),
      ¬(has_luxury_cards h = true ∧ has_faux_pas_cards h = true) →
      ¬(has_luxury_cards (l.foldl win_card h) = true ∧
        has_faux_pas_cards (l.foldl win_card h) = true) := by
    intro l
    induction l with
    | nil => exact fun h hinv => hinv
    | cons c cl ih =>
      intro h hinv
      exact ih (win_card h c) (win_card_step h c hinv)
  exact hgen cs [] (by simp [has_luxury_cards, has_faux_pas_cards])

/-! ### C6: the overall winner -/

/-- The `min` fold of `lowestMoney` is a lower bound of its seed and of every
folded element. -/
lemma foldl_min_money (ps : List GPlayer) (a : Int) :
    ps.foldl (fun m q => min m q.total_money) a ≤ a ∧
    ∀ q ∈ ps, ps.foldl (fun m q => min m q.total_money) a ≤ q.total_money := by
  induction ps generalizing a with
  | nil => simp
  | cons r ps ih =>
    simp only [List.foldl_cons]
    obtain ⟨h1, h2⟩ := ih (min a r.total_money)
    refine ⟨le_trans h1 (min_le_left _ _), ?_⟩
    intro q hq
    rcases List.mem_cons.mp hq with rfl | hq'
    · exact le_trans h1 (min_le_right _ _)
    · exact h2 q hq'

/-- `lowestMoney` is a lower bound of every player's remaining money. -/
lemma lowestMoney_le (p : GPlayer) (ps : List GPlayer) :
    ∀ q ∈ p :: ps, lowestMoney p ps ≤ q.total_money := by
  intro q hq
  rcases List.mem_cons.mp hq with rfl | hq'
  · exact (foldl_min_money ps q.total_money).1
  · exact (foldl_min_money ps p.total_money).2 q hq'

/-- `maxByScore` returns one of its arguments, with a score dominating all of
them (Python's `max(..., key=...)`). -/
lemma maxByScore_spec (es : List GPlayer) :
    ∀ e : GPlayer, (maxByScore e es = e ∨ maxByScore e es ∈ es) ∧
      e.get_total_score ≤ (maxByScore e es).get_total_score ∧
      ∀ q ∈ es, q.get_total_score ≤ (maxByScore e es).get_total_score := by
  induction es with
  | nil => exact fun e => ⟨Or.inl rfl, le_refl _, by simp⟩
  | cons r es ih =>
    intro e
    unfold maxByScore
    simp only [List.foldl_cons]
    by_cases hlt : e.get_total_score < r.get_total_score
    · rw [if_pos hlt]
      obtain ⟨hmem, hle, hall⟩ := ih r
      unfold maxByScore at hmem hle hall
      refine ⟨?_, le_trans (le_of_lt hlt) hle, ?_⟩
      · rcases hmem with hr | hes
        · exact Or.inr (by rw [hr]; exact List.mem_cons_self _ _)
        · exact Or.inr (List.mem_cons_of_mem _ hes)
      · intro q hq
        rcases List.mem_cons.mp hq with rfl | hq'
        · exact hle
        · exact hall q hq'
    · rw [if_neg hlt]
      obtain ⟨hmem, hle, hall⟩ := ih e
      unfold maxByScore at hmem hle hall
      refine ⟨?_, hle, ?_⟩
      · rcases hmem with he | hes
        · exact Or.inl he
        · exact Or.inr (List.mem_cons_of_mem _ hes)
      · intro q hq
        rcases List.mem_cons.mp hq with rfl | hq'
        · exact le_trans (not_lt.mp hlt) hle
        · exact hall q hq'

/-- Unfolding `get_winner` on a nonempty player list. -/
lemma get_winner_cons (p : GPlayer) (ps : List GPlayer) :
    get_winner (p :: ps) =
      match (p :: ps).filter (fun q => decide (lowestMoney p ps < q.total_money)) with
      | [] => none
      | e :: es => some (maxByScore e es) := rfl

/-- C6: the overall-winner computation excludes every player whose remaining
money equals the minimum, returns an eligible player with the highest hand
score, and returns none when no player remains eligible; in the concrete
scenario with funds 5000/5000/7000 and scores 10/20/5 the player with 7000
wins regardless of score. -/
theorem get_winner_spec :
    (∀ (p : GPlayer) (ps : List GPlayer),
      (get_winner (p :: ps) = none ↔
        ∀ q ∈ p :: ps, q.total_money = lowestMoney p ps) ∧
      (∀ w, get_winner (p :: ps) = some w →
        w ∈ p :: ps ∧ lowestMoney p ps < w.total_money ∧
        ∀ q ∈ p :: ps, lowestMoney p ps < q.total_money →
          q.get_total_score ≤ w.get_total_score)) ∧
    get_winner [⟨0, [5000], [], [LuxuryCard "A" 10]⟩, ⟨1, [5000], [], [LuxuryCard "B" 20]⟩,
                ⟨2, [7000], [], [LuxuryCard "C" 5]⟩] =
      some ⟨2, [7000], [], [LuxuryCard "C" 5]⟩ := by
  constructor
  · intro p ps
    rcases hfil : (p :: ps).filter (fun q => decide (lowestMoney p ps < q.total_money))
        with _ | ⟨e, es⟩
    · constructor
      · rw [get_winner_cons, hfil]
        simp only [true_iff]
        intro q hq
        have hnot : ¬(lowestMoney p ps < q.total_money) := by
          have := List.filter_eq_nil_iff.mp hfil q hq
          simpa using this
        exact le_antisymm (not_lt.mp hnot) (lowestMoney_le p ps q hq)
      · intro w hw
        rw [get_winner_cons, hfil] at hw
        exact absurd hw (by simp)
    · have hemem : e ∈ p :: ps ∧ lowestMoney p ps < e.total_money := by
        have : e ∈ (p :: ps).filter (fun q => decide (lowestMoney p ps < q.total_money)) := by
          rw [hfil]; exact List.mem_cons_self _ _
        have := List.mem_filter.mp this
        simpa using this
      constructor
      · rw [get_winner_cons, hfil]
        constructor
        · intro habs
          exact absurd habs (by simp)
        · intro hforall
          exact absurd hemem.2 (by rw [hforall e hemem.1]; exact lt_irrefl _)
      · intro w hw
        rw [get_winner_cons, hfil] at hw
        have hwe : w = maxByScore e es := by
          simpa using hw.symm
        obtain ⟨hmem, hle, hall⟩ := maxByScore_spec es e
        have hwfil : w ∈ (p :: ps).filter
            (fun q => decide (lowestMoney p ps < q.total_money)) := by
          rw [hfil, hwe]
          rcases hmem with hwE | hwes
          · rw [hwE]
            exact List.mem_cons_self _ _
          · exact List.mem_cons_of_mem _ hwes
        have hwp := List.mem_filter.mp hwfil
        refine ⟨hwp.1, by simpa using hwp.2, ?_⟩
        intro q hq hql
        have hqfil : q ∈ (p :: ps).filter
            (fun q => decide (lowestMoney p ps < q.total_money)) :=
          List.mem_filter.mpr ⟨hq, by simpa using hql⟩
        rw [hfil] at hqfil
        rcases List.mem_cons.mp hqfil with rfl | hq'
        · exact hwe ▸ hle
        · exact hwe ▸ hall q hq'
  · decide

/-- C6 witness: applying the theorem to the concrete scenario — the player
with 7000 in funds is eligible and has the maximal score among eligible
players. -/
theorem get_winner_spec_witness :
    (⟨2, [7000], [], [LuxuryCard "C" 5]⟩ : GPlayer) ∈
      [(⟨0, [5000], [], [LuxuryCard "A" 10]⟩ : GPlayer),
       ⟨1, [5000], [], [LuxuryCard "B" 20]⟩, ⟨2, [7000], [], [LuxuryCard "C" 5]⟩] ∧
    lowestMoney ⟨0, [5000], [], [LuxuryCard "A" 10]⟩
      [⟨1, [5000], [], [LuxuryCard "B" 20]⟩, ⟨2, [7000], [], [LuxuryCard "C" 5]⟩] <
      GPlayer.total_money ⟨2, [7000], [], [LuxuryCard "C" 5]⟩ ∧
    ∀ q ∈ [(⟨0, [5000], [], [LuxuryCard "A" 10]⟩ : GPlayer),
           ⟨1, [5000], [], [LuxuryCard "B" 20]⟩, ⟨2, [7000], [], [LuxuryCard "C" 5]⟩],
      lowestMoney ⟨0, [5000], [], [LuxuryCard "A" 10]⟩
        [⟨1, [5000], [], [LuxuryCard "B" 20]⟩, ⟨2, [7000], [], [LuxuryCard "C" 5]⟩] <
        q.total_money →
      q.get_total_score ≤ GPlayer.get_total_score ⟨2, [7000], [], [LuxuryCard "C" 5]⟩ :=
  (get_winner_spec.1 ⟨0, [5000], [], [LuxuryCard "A" 10]⟩
      [⟨1, [5000], [], [LuxuryCard "B" 20]⟩, ⟨2, [7000], [], [LuxuryCard "C" 5]⟩]).2
    ⟨2, [7000], [], [LuxuryCard "C" 5]⟩ (by decide)

/-! ### C8: ring rotation -/

/-- Unfolding one step of the rotation loop on a nonempty ring. -/
lemma rotateLoop_succ (n : Nat) (p : GPlayer) (ps : List GPlayer) (passed : List Nat) :
    rotateLoop (n + 1) (p :: ps) passed =
      match (ps ++ [p]).head? with
      | none => none
      | some q =>
        if q.id ∈ passed then rotateLoop n (ps ++ [p]) passed else some (ps ++ [p]) := rfl

/-- If the rotation loop of `_next_player` fails with `n` steps of fuel, then
the first `n` players reached by successive rotations have all passed. -/
lemma rotateLoop_none_mem (n : Nat) :
    ∀ (p : GPlayer) (ps : List GPlayer) (passed : List Nat),
      rotateLoop n (p :: ps) passed = none →
      ∀ q ∈ (ps ++ [p]).take n, q.id ∈ passed := by
  induction n with
  | zero => simp
  | succ n ih =>
    intro p ps passed h q hq
    rcases hqe : ps ++ [p] with _ | ⟨q0, qs⟩
    · exact absurd hqe (by simp)
    · rw [hqe] at hq
      rw [rotateLoop_succ, hqe] at h
      simp only [List.head?_cons] at h
      by_cases h0 : q0.id ∈ passed
      · rw [if_pos h0] at h
        rcases List.mem_cons.mp (by simpa using hq) with rfl | hq'
        · exact h0
        · have htail := ih q0 qs passed h
          have : q ∈ (qs ++ [q0]).take n := by
            rw [List.take_append_eq_append_take]
            exact List.mem_append_left _ hq'
          exact htail q this
      · rw [if_neg h0] at h
        exact absurd h (by simp)

/-- C8: `_next_player` raises `NoActivePlayerError` (embedded as `none`)
exactly when the player list is empty or every player has passed (a full
fruitless rotation implies the latter); in particular a two-player ring where
both players have passed fails. -/
theorem next_player_spec (players : List GPlayer) (passed : List Nat) :
    (next_player players passed = none ↔
      players = [] ∨ ∀ p ∈ players, p.id ∈ passed) ∧
    next_player [⟨0, [], [], []⟩, ⟨1, [], [], []⟩] [0, 1] = none := by
  refine ⟨?_, by decide⟩
  unfold next_player
  rcases players with _ | ⟨p, ps⟩
  · simp
  · by_cases hall : (p :: ps).all (fun q => decide (q.id ∈ passed)) = true
    · rw [if_neg (by simp), if_pos hall]
      simp only [true_iff]
      refine Or.inr ?_
      intro q hq
      have := List.all_eq_true.mp hall q hq
      simpa using this
    · rw [if_neg (by simp), if_neg hall]
      have hnone : rotateLoop (p :: ps).length (p :: ps) passed ≠ none := by
        intro hn
        apply hall
        rw [List.all_eq_true]
        intro q hq
        have hlen : (ps ++ [p]).length = (p :: ps).length := by simp
        have htake := rotateLoop_none_mem (p :: ps).length p ps passed hn
        rw [← hlen, List.take_length] at htake
        have hqm : q ∈ ps ++ [p] := by
          rcases List.mem_cons.mp hq with rfl | hq'
          · exact List.mem_append_right _ (List.mem_cons_self _ _)
          · exact List.mem_append_left _ hq'
        simpa using htake q hqm
      constructor
      · intro hcontra
        exact absurd hcontra hnone
      · rintro (habs | hforall)
        · exact absurd habs (by simp)
        · exact absurd (List.all_eq_true.mpr fun q hq => by simpa using hforall q hq) hall

/-! ### C2: enumeration of valid raises -/

/-- Membership in `get_valid_bids`: exactly the nonempty subsequences of the
available raises whose sum strictly exceeds the raise minimum. -/
lemma mem_get_valid_bids (funds bid chb : List Int) (l : List Int) :
    l ∈ get_valid_bids funds bid chb ↔
      l ≠ [] ∧ chb.sum - bid.sum < l.sum ∧
        l.Sublist (get_available_raises funds bid) := by
  unfold get_valid_bids
  rw [List.mem_insertionSort, List.mem_filter]
  simp only [List.mem_flatMap, List.mem_range, List.mem_sublistsLen,
    decide_eq_true_eq]
  constructor
  · rintro ⟨⟨n, hn, hsub, hlen⟩, hsum⟩
    refine ⟨?_, hsum, hsub⟩
    intro h0
    rw [h0] at hlen
    simp at hlen
  · rintro ⟨hne, hsum, hsub⟩
    have hpos : 0 < l.length := List.length_pos.mpr hne
    have hle : l.length ≤ (get_available_raises funds bid).length := hsub.length_le
    refine ⟨⟨l.length - 1, by omega, hsub, by omega⟩, hsum⟩

/-- C2: `get_valid_bids` returns, up to the order within the returned list,
exactly the non-empty sub-multisets of the funds remaining after subtracting
the committed bid whose sum strictly exceeds the current highest bid's sum
minus the committed bid's sum; and the returned list is sorted ascending by
sum. -/
theorem get_valid_bids_spec (funds bid chb : List Int) :
    List.Sorted sumLE (get_valid_bids funds bid chb) ∧
    ∀ m : List Int,
      (∃ l ∈ get_valid_bids funds bid chb, l.Perm m) ↔
        (m ≠ [] ∧ chb.sum - bid.sum < m.sum ∧
         ∀ d, m.count d ≤ (get_available_raises funds bid).count d) := by
  constructor
  · exact List.sorted_insertionSort sumLE _
  · intro m
    constructor
    · rintro ⟨l, hl, hperm⟩
      rw [mem_get_valid_bids] at hl
      obtain ⟨hne, hsum, hsub⟩ := hl
      have hsp : m.Subperm (get_available_raises funds bid) := ⟨l, hperm, hsub⟩
      refine ⟨?_, ?_, fun d => hsp.count_le d⟩
      · intro hm
        rw [hm, List.perm_nil] at hperm
        exact hne hperm
      · rw [← hperm.sum_eq]
        exact hsum
    · rintro ⟨hne, hsum, hcount⟩
      have hsp : m.Subperm (get_available_raises funds bid) :=
        List.subperm_ext_iff.mpr (fun x _ => hcount x)
      obtain ⟨l, hlp, hls⟩ := hsp
      refine ⟨l, ?_, hlp⟩
      rw [mem_get_valid_bids]
      refine ⟨?_, ?_, hls⟩
      · intro h0
        rw [h0] at hlp
        exact hne ((List.nil_perm).mp hlp)
      · rw [hlp.sum_eq]
        exact hsum

/-! ### C5: the bid-to-avoid auction -/

/-- `_next_player` with an empty passed set rotates the ring by one. -/
lemma next_player_nil_passed (p : GPlayer) (ps : List GPlayer) :
    next_player (p :: ps) [] = some (ps ++ [p]) := by
  unfold next_player
  rw [if_neg (by simp), if_neg (by simp)]
  rcases hqe : ps ++ [p] with _ | ⟨q0, qs⟩
  · exact absurd hqe (by simp)
  · rw [show (p :: ps).length = ps.length + 1 from rfl, rotateLoop_succ, hqe]
    simp

/-- Unfolding one iteration of the avoid-auction loop on a live state. -/
lemma loopAvoid_step (fuel : Nat) (d : List Int) (script : List (List Int))
    (p : GPlayer) (ps : List GPlayer) (cb : List Int) :
    loopAvoid (fuel + 1) (d :: script) ⟨p :: ps, [], cb⟩ =
      (if d = [-1] then
        some ⟨{ p with bid := d } :: ps, [p.id], cb⟩
      else
        match next_player ({ p with bid := d } :: ps) [] with
        | none => none
        | some players' => loopAvoid fuel script ⟨players', [], d⟩) := rfl

/-- Running the avoid-auction loop on a script of `pre` non-pass bids followed
by a pass: the loop succeeds (using `|pre| + 1` of the fuel), ends exactly at
the pass with the passer at the ring's front as the only passed player, and
leaves every player's funds and hand untouched. -/
lemma loopAvoid_run (pre : List (List Int)) :
    ∀ (rest : List (List Int)) (fuel : Nat) (players : List GPlayer) (cb : List Int),
      (∀ d ∈ pre, d ≠ [-1]) → pre.length < fuel → players ≠ [] →
      ∃ (w : GPlayer) (ws : List GPlayer) (cb' : List Int),
        loopAvoid fuel (pre ++ [-1] :: rest) ⟨players, [], cb⟩ =
          some ⟨w :: ws, [w.id], cb'⟩ ∧
        w.bid = [-1] ∧
        ∀ q ∈ w :: ws, ∃ p ∈ players, p.id = q.id ∧ p.funds = q.funds ∧ p.hand = q.hand := by
  induction pre with
  | nil =>
    intro rest fuel players cb hpre hfuel hne
    rcases players with _ | ⟨p, ps⟩
    · exact absurd rfl hne
    rcases fuel with _ | fuel
    · exact absurd hfuel (Nat.not_lt_zero _)
    refine ⟨{ p with bid := [-1] }, ps, cb, ?_, rfl, ?_⟩
    · rw [List.nil_append, loopAvoid_step, if_pos rfl]
    · intro q hq
      rcases List.mem_cons.mp hq with rfl | hq'
      · exact ⟨p, List.mem_cons_self _ _, rfl, rfl, rfl⟩
      · exact ⟨q, List.mem_cons_of_mem _ hq', rfl, rfl, rfl⟩
  | cons d pre' ih =>
    intro rest fuel players cb hpre hfuel hne
    rcases players with _ | ⟨p, ps⟩
    · exact absurd rfl hne
    rcases fuel with _ | fuel
    · exact absurd hfuel (Nat.not_lt_zero _)
    have hd : d ≠ [-1] := hpre d (List.mem_cons_self _ _)
    have hfuel' : pre'.length < fuel := by
      simp only [List.length_cons] at hfuel
      omega
    obtain ⟨w, ws, cb', heq, hbid, hcorr⟩ :=
      ih rest fuel (ps ++ [{ p with bid := d }]) d
        (fun x hx => hpre x (List.mem_cons_of_mem _ hx)) hfuel' (by simp)
    refine ⟨w, ws, cb', ?_, hbid, ?_⟩
    · rw [List.cons_append, loopAvoid_step, if_neg hd, next_player_nil_passed]
      exact heq
    · intro q hq
      obtain ⟨p1, hp1mem, hid, hfunds, hhand⟩ := hcorr q hq
      rcases List.mem_append.mp hp1mem with hp1 | hp1
      · exact ⟨p1, List.mem_cons_of_mem _ hp1, hid, hfunds, hhand⟩
      · have hp1e : p1 = { p with bid := d } := by simpa using hp1
        subst hp1e
        exact ⟨p, List.mem_cons_self _ _, hid, hfunds, hhand⟩

/-- Each entry of a successful `resolveAvoid` result comes from the
corresponding ring entry: the winner's entry gains the card via `win_card`
(funds untouched), every other entry has spent its committed bid. -/
lemma resolveAvoid_mem (card : AuctionCard) (wid : Nat) :
    ∀ (l final : List GPlayer), resolveAvoid card wid l = some final →
      ∀ q ∈ final, ∃ r ∈ l, r.id = q.id ∧
        ((r.id = wid ∧ q = { r with hand := win_card r.hand card }) ∨
         (r.id ≠ wid ∧ spendFunds r.funds r.bid = some q.funds ∧
          q.bid = [] ∧ q.hand = r.hand)) := by
  intro l
  induction l with
  | nil =>
    intro final h q hq
    simp only [resolveAvoid, Option.some.injEq] at h
    rw [← h] at hq
    exact absurd hq (by simp)
  | cons r rs ih =>
    intro final h q hq
    simp only [resolveAvoid] at h
    rcases hstep : (if r.id = wid then some { r with hand := win_card r.hand card }
        else r.spend_bid) with _ | q0
    · rw [hstep] at h
      exact absurd h (by simp)
    · rcases hrest : resolveAvoid card wid rs with _ | qs
      · rw [hstep, hrest] at h
        exact absurd h (by simp)
      · rw [hstep, hrest] at h
        simp only [Option.some.injEq] at h
        rw [← h] at hq
        rcases List.mem_cons.mp hq with rfl | hq'
        · by_cases hr : r.id = wid
          · rw [if_pos hr] at hstep
            have hq0 : { r with hand := win_card r.hand card } = q :=
              Option.some.injEq .. ▸ hstep.symm ▸ rfl
            refine ⟨r, List.mem_cons_self _ _, ?_, Or.inl ⟨hr, hq0.symm⟩⟩
            rw [← hq0]
          · rw [if_neg hr] at hstep
            unfold GPlayer.spend_bid at hstep
            rcases hsf : spendFunds r.funds r.bid with _ | funds'
            · rw [hsf] at hstep
              exact absurd hstep (by simp)
            · rw [hsf] at hstep
              simp only [Option.some.injEq] at hstep
              rw [← hstep]
              exact ⟨r, List.mem_cons_self _ _, rfl,
                Or.inr ⟨hr, by rw [hsf], rfl, rfl⟩⟩
        · obtain ⟨r1, hr1, hrest'⟩ := ih qs hrest q hq'
          exact ⟨r1, List.mem_cons_of_mem _ hr1, hrest'⟩

/-- C5: with a script of non-pass bids followed by the first pass, the
avoid-auction loop terminates exactly at that first pass, the passer is the
sole passed player and wins the card: the winner's funds are untouched and
their hand receives the card via `win_card`, while every other player has
their own last committed bid removed from their (unchanged-by-the-loop)
inventory. -/
theorem hold_auction_to_avoid_spec (players : List GPlayer) (card : AuctionCard)
    (pre rest : List (List Int)) (fuel : Nat)
    (hpre : ∀ d ∈ pre, d ≠ [-1]) (hfuel : pre.length < fuel) (hne : players ≠ []) :
    ∃ (w : GPlayer) (ws : List GPlayer) (cb' : List Int),
      loopAvoid fuel (pre ++ [-1] :: rest) ⟨players, [], []⟩ =
        some ⟨w :: ws, [w.id], cb'⟩ ∧
      w.bid = [-1] ∧
      (∀ q ∈ w :: ws, ∃ p ∈ players, p.id = q.id ∧ p.funds = q.funds ∧ p.hand = q.hand) ∧
      ∀ final wid,
        hold_auction_to_avoid card fuel (pre ++ [-1] :: rest) players = some (final, wid) →
        wid = w.id ∧
        ∀ q ∈ final,
          (q.id = wid →
            ∃ p ∈ players, p.id = q.id ∧ q.funds = p.funds ∧
              q.hand = win_card p.hand card) ∧
          (q.id ≠ wid →
            ∃ r ∈ w :: ws, r.id = q.id ∧ spendFunds r.funds r.bid = some q.funds ∧
              q.bid = [] ∧ ∃ p ∈ players, p.id = q.id ∧ p.funds = r.funds) := by
  obtain ⟨w, ws, cb', heq, hbid, hcorr⟩ := loopAvoid_run pre rest fuel players [] hpre hfuel hne
  refine ⟨w, ws, cb', heq, hbid, hcorr, ?_⟩
  intro final wid hfin
  unfold hold_auction_to_avoid at hfin
  rw [heq] at hfin
  simp only [] at hfin
  rcases hres : resolveAvoid card w.id (w :: ws) with _ | final'
  · rw [hres] at hfin
    exact absurd hfin (by simp)
  · rw [hres] at hfin
    simp only [Option.some.injEq, Prod.mk.injEq] at hfin
    obtain ⟨hfe, hwe⟩ := hfin
    subst hfe
    refine ⟨hwe.symm, ?_⟩
    intro q hq
    obtain ⟨r, hr, hrid, hcase⟩ := resolveAvoid_mem card w.id (w :: ws) final' hres q hq
    constructor
    · intro hqw
      rcases hcase with ⟨hrw, hqe⟩ | ⟨hrw, -⟩
      · obtain ⟨p, hp, hpid, hpf, hph⟩ := hcorr r hr
        refine ⟨p, hp, hpid.trans hrid, ?_, ?_⟩
        · rw [hqe]
          exact hpf.symm
        · rw [hqe, hph]
      · rw [← hwe] at hqw
        exact absurd (hrid.trans hqw) hrw
    · intro hqw
      rcases hcase with ⟨hrw, -⟩ | ⟨hrw, hsf, hqb, -⟩
      · rw [← hwe] at hqw
        exact absurd (hrid ▸ hrw) hqw
      · obtain ⟨p, hp, hpid, hpf, -⟩ := hcorr r hr
        exact ⟨r, hr, hrid, hsf, hqb, p, hp, hpid.trans hrid, hpf⟩

/-- C5 witness: a three-player avoid auction where players 0 and 1 bid and
player 2 passes first. -/
theorem hold_auction_to_avoid_spec_witness :
    ∃ (w : GPlayer) (ws : List GPlayer) (cb' : List Int),
      loopAvoid 3 ([[1000], [2000]] ++ [-1] :: [])
          ⟨[⟨0, [1000, 2000], [], []⟩, ⟨1, [2000, 3000], [], []⟩, ⟨2, [5000], [], []⟩],
           [], []⟩ =
        some ⟨w :: ws, [w.id], cb'⟩ ∧
      w.bid = [-1] ∧
      (∀ q ∈ w :: ws,
        ∃ p ∈ [(⟨0, [1000, 2000], [], []⟩ : GPlayer), ⟨1, [2000, 3000], [], []⟩,
               ⟨2, [5000], [], []⟩],
          p.id = q.id ∧ p.funds = q.funds ∧ p.hand = q.hand) ∧
      ∀ final wid,
        hold_auction_to_avoid (PasseCard "Passe" 5) 3 ([[1000], [2000]] ++ [-1] :: [])
            [⟨0, [1000, 2000], [], []⟩, ⟨1, [2000, 3000], [], []⟩, ⟨2, [5000], [], []⟩] =
          some (final, wid) →
        wid = w.id ∧
        ∀ q ∈ final,
          (q.id = wid →
            ∃ p ∈ [(⟨0, [1000, 2000], [], []⟩ : GPlayer), ⟨1, [2000, 3000], [], []⟩,
                   ⟨2, [5000], [], []⟩],
              p.id = q.id ∧ q.funds = p.funds ∧
                q.hand = win_card p.hand (PasseCard "Passe" 5)) ∧
          (q.id ≠ wid →
            ∃ r ∈ w :: ws, r.id = q.id ∧ spendFunds r.funds r.bid = some q.funds ∧
              q.bid = [] ∧
              ∃ p ∈ [(⟨0, [1000, 2000], [], []⟩ : GPlayer), ⟨1, [2000, 3000], [], []⟩,
                     ⟨2, [5000], [], []⟩],
                p.id = q.id ∧ p.funds = r.funds) :=
  hold_auction_to_avoid_spec
    [⟨0, [1000, 2000], [], []⟩, ⟨1, [2000, 3000], [], []⟩, ⟨2, [5000], [], []⟩]
    (PasseCard "Passe" 5) [[1000], [2000]] [] 3
    (by decide) (by decide) (by decide)

end HighSociety
